import Mathlib

/-!
Verification of `analyze_project.py` from the FlowMaster repository.

The program is a single routine: walk the filesystem below the parent
directory of the supplied project path (`os.walk(os.path.dirname(project_path))`),
group every file whose name ends in `.swift` by basename, print the groups
with more than one member, and return whether any such group exists.

The filesystem is modelled as a finite tree of entries.  A directory carries a
`readable` flag: an unreadable directory is one whose `os.scandir` call raises
an `OSError`, which `os.walk` (with its default `onerror = None`) swallows,
yielding nothing for that subtree.  A `link` entry models a symbolic link to a
directory: `os.walk` lists it among the subdirectories of its parent but, with
its default `followlinks = False`, never descends into it, so symlink cycles
on the real filesystem cannot make the walk loop.  A file carries its textual
contents, which the program never reads.  A missing (or unreadable) scan root
is modelled by `none`: `os.walk` on such a root raises inside its first
`scandir`, swallows the error, and yields no triple at all.

String operations are modelled on the character lists underlying `String`,
so that every definition evaluates inside the kernel.
-/

/-- A filesystem entry: a file (with contents), a directory (with a
readability flag and children), or a symbolic link to a directory. -/
inductive Entry where
  | file (name : String) (contents : String)
  | dir (name : String) (readable : Bool) (children : List Entry)
  | link (name : String)
deriving Repr

/-- Python's `s.endswith(t)`: exact, case-sensitive suffix match. -/
def strEndsWith (s t : String) : Bool :=
  t.data == s.data.drop (s.data.length - t.data.length)

/-- Python's `s.startswith(t)`: exact, case-sensitive prefix match. -/
def strStartsWith (s t : String) : Bool :=
  s.data.take t.data.length == t.data

/-- `os.path.join a b` for POSIX paths, as the source uses it: `b` if `b` is
absolute, plain concatenation if `a` is empty or ends with a slash, and
otherwise `a ++ "/" ++ b`. -/
def pjoin (a b : String) : String :=
  if strStartsWith b "/" then b
  else if a = "" ∨ strEndsWith a "/" then a ++ b
  else a ++ "/" ++ b

/-- `os.path.dirname p` for POSIX paths: the head of `p` up to the last
slash, with trailing slashes stripped unless the head is all slashes. -/
def dirname (p : String) : String :=
  let head := (p.data.reverse.dropWhile (· ≠ '/')).reverse
  if head ≠ [] ∧ head.any (· ≠ '/') then
    ⟨(head.reverse.dropWhile (· = '/')).reverse⟩
  else ⟨head⟩

/-- The names of the plain files among a directory's children, in listing
order: the `files` component of an `os.walk` triple. -/
def filesOf (cs : List Entry) : List String :=
  cs.filterMap fun e =>
    match e with
    | .file n _ => some n
    | _ => none

/-- The names of the subdirectories among a directory's children, in listing
order: the `dirs` component of an `os.walk` triple.  A symlink to a directory
is listed here, because `entry.is_dir()` follows the link. -/
def dirNamesOf (cs : List Entry) : List String :=
  cs.filterMap fun e =>
    match e with
    | .dir n _ _ => some n
    | .link n => some n
    | _ => none

/-- One `os.walk` triple: the directory path, its subdirectory names and its
file names. -/
abbrev Frame := String × List String × List String

/-- The walk frames produced strictly below a directory at path `top` with
children `cs` (the frame of `top` itself excluded): for each child that is a
real directory, its own frame followed by its descendants' frames, in listing
order.  An unreadable directory yields nothing, because its `scandir` raises
and `os.walk` swallows the error; a link is listed by its parent but never
descended into. -/
def walkKids (top : String) (cs : List Entry) : List Frame :=
  match cs with
  | [] => []
  | .dir n r sub :: rest =>
      (if r then (pjoin top n, dirNamesOf sub, filesOf sub) :: walkKids (pjoin top n) sub
       else []) ++ walkKids top rest
  | _ :: rest => walkKids top rest

/-- `os.walk top` on a root that may not exist: `none` models a missing (or
unreadable) scan root, for which the walk silently yields no frame at all;
otherwise the root's own frame comes first, then its descendants' frames. -/
def walkTop (top : String) (root : Option (List Entry)) : List Frame :=
  match root with
  | none => []
  | some cs => (top, dirNamesOf cs, filesOf cs) :: walkKids top cs

/-- The `(directory, filename)` pairs contributed by one walk frame, in the
order the inner `for file in files` loop sees them. -/
def frameFiles (fr : Frame) : List (String × String) :=
  fr.2.2.map fun f => (fr.1, f)

/-- Every `(directory, filename)` pair the two nested loops of the source
visit, in traversal order: `os.walk(os.path.dirname(project_path))` flattened
over each frame's file list. -/
def walkedFiles (project_path : String) (root : Option (List Entry)) :
    List (String × String) :=
  (walkTop (dirname project_path) root).flatMap frameFiles

/-- The visited pairs that pass the `file.endswith('.swift')` filter, in
traversal order. -/
def matchedFiles (project_path : String) (root : Option (List Entry)) :
    List (String × String) :=
  (walkedFiles project_path root).filter fun e => strEndsWith e.2 ".swift"

/-- One iteration of the accumulation body: `swift_files[file].append(path)`,
creating the key at the end of the (insertion-ordered) dict when absent. -/
def addPath (gs : List (String × List String)) (k v : String) :
    List (String × List String) :=
  match gs with
  | [] => [(k, [v])]
  | g :: rest => if g.1 = k then (g.1, g.2 ++ [v]) :: rest else g :: addPath rest k v

/-- The grouping dict built by folding the accumulation body over a list of
`(directory, filename)` pairs; the value appended is `os.path.join(root, file)`. -/
def groupsOf (l : List (String × String)) : List (String × List String) :=
  l.foldl (fun gs e => addPath gs e.2 (pjoin e.1 e.2)) []

/-- The `swift_files` dict of the source after the walk: filenames mapped to
the full paths at which they occur, keys in first-encounter order, paths in
traversal order. -/
def swift_files (project_path : String) (root : Option (List Entry)) :
    List (String × List String) :=
  groupsOf (matchedFiles project_path root)

/-- The `has_duplicates` flag as the source computes it: folded over the
groups, set once some group has more than one path. -/
def hasDupFold (gs : List (String × List String)) : Bool :=
  gs.foldl (fun b g => if g.2.length > 1 then true else b) false

/-- The lines printed by the reporting loop: for each group with more than
one path, `print(f"\n\x7bfilename\x7d:")` (a blank line, then the name with a
colon) followed by one `"  - <path>"` line per path. -/
def dupBlocks (gs : List (String × List String)) : List String :=
  gs.flatMap fun g =>
    if g.2.length > 1 then "" :: (g.1 ++ ":") :: g.2.map (fun p => "  - " ++ p)
    else []

/-- `analyze_project(project_path)` over a modelled filesystem: the pair of
the full sequence of printed lines and the returned `has_duplicates` value. -/
def analyze_project (project_path : String) (root : Option (List Entry)) :
    List String × Bool :=
  let gs := swift_files project_path root
  (["Analyzing project file: " ++ pjoin project_path "project.pbxproj", "",
    "Duplicate Swift files found:"]
    ++ dupBlocks gs
    ++ (if hasDupFold gs then [] else ["No duplicate Swift files found."]),
   hasDupFold gs)

/-- The `__main__` block: the project path is `sys.argv[1]` when present and
the literal `"FlowMaster.xcodeproj"` otherwise; `args` is `sys.argv[1:]`.
The script never calls `sys.exit` and never raises, so the process exit
status is `0`; the result pairs the analysis with that exit status. -/
def mainRun (args : List String) (root : Option (List Entry)) :
    (List String × Bool) × Nat :=
  (analyze_project ((args.head?).getD "FlowMaster.xcodeproj") root, 0)

/-- Whether every directory of the tree is readable. -/
def allReadableL : List Entry → Bool
  | [] => true
  | .dir _ r sub :: rest => r && (allReadableL sub && allReadableL rest)
  | _ :: rest => allReadableL rest

/-- Every `(directory, filename)` pair of the tree itself, directories taken
at their position among their siblings and readability ignored: the
tree-level notion of "all files under the root". -/
def allFilesUnder (top : String) : List Entry → List (String × String)
  | [] => []
  | .file n _ :: rest => (top, n) :: allFilesUnder top rest
  | .dir n _ sub :: rest => allFilesUnder (pjoin top n) sub ++ allFilesUnder top rest
  | .link _ :: rest => allFilesUnder top rest

/-- The number of directory nodes of the tree. -/
def countDirs : List Entry → Nat
  | [] => 0
  | .dir _ _ sub :: rest => 1 + countDirs sub + countDirs rest
  | _ :: rest => countDirs rest

/-- The tree with every file's contents erased: two trees with the same
`scrubList` image differ at most in file contents. -/
def scrubList : List Entry → List Entry
  | [] => []
  | .file n _ :: rest => .file n "" :: scrubList rest
  | .dir n r sub :: rest => .dir n r (scrubList sub) :: scrubList rest
  | .link n :: rest => .link n :: scrubList rest

/-- The tree with the subtree of every unreadable directory removed: what the
walk can actually read. -/
def pruneList : List Entry → List Entry
  | [] => []
  | .dir n true sub :: rest => .dir n true (pruneList sub) :: pruneList rest
  | .dir n false _ :: rest => .dir n false [] :: pruneList rest
  | e :: rest => e :: pruneList rest

/-- First definition-site lookup in an insertion-ordered association list. -/
def lookupGroup (gs : List (String × List String)) (k : String) :
    Option (List String) :=
  match gs with
  | [] => none
  | g :: rest => if g.1 = k then some g.2 else lookupGroup rest k

/-- The path list stored under a key, `[]` when the key is absent. -/
def lookupList (gs : List (String × List String)) (k : String) : List String :=
  (lookupGroup gs k).getD []

/-- The distinct elements of a list, each at its first occurrence, in order. -/
def firstKeys : List String → List String
  | [] => []
  | k :: rest => k :: (firstKeys rest).filter (· ≠ k)

/-- Modelled from the spec: the standard output format of section 6, built
from the supplied root path and the final groups — the three header lines,
then one block per duplicate group (blank line, `<filename>:`, one indented
`  - <path>` line per path), or the single no-duplicates line when no group
has two or more paths. -/
def specReportLines (root_path : String) (gs : List (String × List String)) :
    List String :=
  ["Analyzing project file: " ++ root_path ++ "/project.pbxproj", "",
   "Duplicate Swift files found:"]
  ++ (if gs.any fun g => g.2.length ≥ 2 then
        (gs.filter fun g => g.2.length ≥ 2).flatMap
          (fun g => "" :: (g.1 ++ ":") :: g.2.map (fun p => "  - " ++ p))
      else ["No duplicate Swift files found."])

/-- A sample tree with one duplicated basename, used to exercise the theorems
on concrete inputs: `a/Foo.swift`, `b/Foo.swift` and `Bar.swift`. -/
def sampleDupTree : List Entry :=
  [.dir "a" true [.file "Foo.swift" "classA"],
   .dir "b" true [.file "Foo.swift" "classB"],
   .file "Bar.swift" "classC"]

/-- A flat sample tree with one matching and one non-matching file. -/
def sampleFlatTree : List Entry :=
  [.file "A.swift" "", .file "B.txt" ""]

/-- A single-file tree holding a `project.pbxproj` with one contents value. -/
def pbxTreeOld : List Entry := [.file "project.pbxproj" "hello"]

/-- The same tree as `pbxTreeOld` up to the contents of the file. -/
def pbxTreeNew : List Entry := [.file "project.pbxproj" "world"]

/-- Folding the accumulation body over `l` starting from an arbitrary dict. -/
def foldAdd (gs : List (String × List String)) (l : List (String × String)) :
    List (String × List String) :=
  l.foldl (fun gs e => addPath gs e.2 (pjoin e.1 e.2)) gs

theorem groupsOf_eq_foldAdd (l : List (String × String)) :
    groupsOf l = foldAdd [] l := rfl

theorem lookupGroup_addPath (gs : List (String × List String)) (k v k' : String) :
    lookupGroup (addPath gs k v) k' =
      if k' = k then some (lookupList gs k ++ [v]) else lookupGroup gs k' := by
  induction gs with
  | nil =>
      by_cases h : k' = k
      · simp [addPath, lookupGroup, lookupList, h]
      · simp [addPath, lookupGroup, lookupList, h,
          show ¬ k = k' from fun h' => h h'.symm]
  | cons g rest ih =>
      by_cases hg : g.1 = k
      · by_cases h : k' = k
        · simp [addPath, hg, lookupGroup, lookupList, h,
            show g.1 = k' from hg.trans h.symm]
        · simp [addPath, hg, lookupGroup, lookupList, h,
            show ¬ g.1 = k' from fun h' => h (h'.symm.trans hg),
            show ¬ k = k' from fun h' => h h'.symm]
      · by_cases h : k' = k
        · subst h
          simp [addPath, hg, lookupGroup, lookupList, ih]
        · by_cases hg' : g.1 = k'
          · simp [addPath, hg, lookupGroup, lookupList, hg', h]
          · simp [addPath, hg, lookupGroup, lookupList, hg', h, ih]

theorem lookupList_addPath (gs : List (String × List String)) (k v k' : String) :
    lookupList (addPath gs k v) k' =
      if k' = k then lookupList gs k ++ [v] else lookupList gs k' := by
  unfold lookupList
  rw [lookupGroup_addPath]
  split <;> simp [lookupList]

theorem keys_addPath (gs : List (String × List String)) (k v : String) :
    (addPath gs k v).map Prod.fst =
      if k ∈ gs.map Prod.fst then gs.map Prod.fst else gs.map Prod.fst ++ [k] := by
  induction gs with
  | nil => simp [addPath]
  | cons g rest ih =>
      by_cases hg : g.1 = k
      · simp [addPath, hg]
      · by_cases hm : k ∈ rest.map Prod.fst <;>
          simp [addPath, hg, ih, hm, show ¬ k = g.1 from fun h => hg h.symm]

theorem nonempty_addPath (gs : List (String × List String)) (k v : String)
    (h : ∀ g ∈ gs, g.2 ≠ []) : ∀ g' ∈ addPath gs k v, g'.2 ≠ [] := by
  induction gs with
  | nil => simp [addPath]
  | cons g rest ih =>
      intro g' hg'
      by_cases hg : g.1 = k
      · simp [addPath, hg] at hg'
        rcases hg' with h1 | h2
      
        · simp [h1]
        · exact h g' (by simp [h2])
      · simp [addPath, hg] at hg'
        rcases hg' with h1 | h2
      
        · exact h1 ▸ h g (by simp)
        · exact ih (fun g hgm => h g (by simp [hgm])) g' h2

theorem nodup_keys_addPath (gs : List (String × List String)) (k v : String)
    (h : (gs.map Prod.fst).Nodup) : ((addPath gs k v).map Prod.fst).Nodup := by
  rw [keys_addPath]
  split
  · exact h
  · next hn => simp [List.nodup_append, h, hn]

theorem flatMap_addPath_perm (gs : List (String × List String)) (k v : String) :
    List.Perm ((addPath gs k v).flatMap Prod.snd) (gs.flatMap Prod.snd ++ [v]) := by
  induction gs with
  | nil => simp [addPath]
  | cons g rest ih =>
      by_cases hg : g.1 = k
      · have e1 : addPath (g :: rest) k v = (g.1, g.2 ++ [v]) :: rest := by
          simp [addPath, hg]
        rw [e1, List.flatMap_cons, List.flatMap_cons]
        have h2 : List.Perm (g.2 ++ ([v] ++ rest.flatMap Prod.snd))
            (g.2 ++ (rest.flatMap Prod.snd ++ [v])) :=
          List.Perm.append_left g.2 List.perm_append_comm
        simpa [List.append_assoc] using h2
      · have e1 : addPath (g :: rest) k v = g :: addPath rest k v := by
          simp [addPath, hg]
        rw [e1, List.flatMap_cons, List.flatMap_cons]
        exact (ih.append_left g.2).trans (by simp [List.append_assoc])

theorem lookupGroup_foldAdd (l : List (String × String)) :
    ∀ gs k, lookupGroup (foldAdd gs l) k =
      if l.any (fun e => e.2 = k) then
        some (lookupList gs k ++
          (l.filter (fun e => e.2 = k)).map (fun e => pjoin e.1 e.2))
      else lookupGroup gs k := by
  induction l with
  | nil => intro gs k; simp [foldAdd]
  | cons e l ih =>
      intro gs k
      have hfold : foldAdd gs (e :: l) = foldAdd (addPath gs e.2 (pjoin e.1 e.2)) l := rfl
      rw [hfold, ih]
      by_cases he : e.2 = k
      · by_cases hl : l.any (fun e => e.2 = k)
        · simp [he, hl, List.filter_cons, lookupList_addPath, List.append_assoc]
        · have hl' : ∀ a ∈ l, ¬ a.2 = k := by
            intro a ha hk
            exact hl (List.any_eq_true.mpr ⟨a, ha, by simp [hk]⟩)
          have hfil : l.filter (fun e => e.2 = k) = [] :=
            List.filter_eq_nil_iff.mpr (fun a ha => by simpa using hl' a ha)
          simp [he, hl, List.filter_cons, hfil, lookupGroup_addPath, lookupList]
      · have h1 : lookupList (addPath gs e.2 (pjoin e.1 e.2)) k = lookupList gs k := by
          rw [lookupList_addPath]; exact if_neg (fun h => he h.symm)
        have h2 : lookupGroup (addPath gs e.2 (pjoin e.1 e.2)) k = lookupGroup gs k := by
          rw [lookupGroup_addPath]; exact if_neg (fun h => he h.symm)
        rw [h1, h2]
        have hd : decide (e.2 = k) = false := decide_eq_false_iff_not.mpr he
        have ha : ((e :: l).any fun e => decide (e.2 = k))
            = (l.any fun e => decide (e.2 = k)) := by
          rw [List.any_cons, hd, Bool.false_or]
        have hf : List.filter (fun e => decide (e.2 = k)) (e :: l)
            = List.filter (fun e => decide (e.2 = k)) l := by
          rw [List.filter_cons_of_neg (by simp [hd])]
        rw [ha, hf]

theorem lookupGroup_groupsOf (l : List (String × String)) (k : String) :
    lookupGroup (groupsOf l) k =
      if l.any (fun e => e.2 = k) then
        some ((l.filter (fun e => e.2 = k)).map (fun e => pjoin e.1 e.2))
      else none := by
  rw [groupsOf_eq_foldAdd, lookupGroup_foldAdd]
  simp [lookupList, lookupGroup]

theorem filter_not_mem_append_singleton (F K : List String) (x : String) :
    F.filter (fun a => decide (a ∉ K ++ [x])) =
      (F.filter (fun a => decide (a ≠ x))).filter (fun a => decide (a ∉ K)) := by
  rw [List.filter_filter]
  refine List.filter_congr ?_
  intro a _
  by_cases h1 : a = x <;> by_cases h2 : a ∈ K <;> simp [h1, h2]

theorem filter_not_mem_of_mem (F K : List String) (x : String) (hx : x ∈ K) :
    (F.filter (fun a => decide (a ≠ x))).filter (fun a => decide (a ∉ K)) =
      F.filter (fun a => decide (a ∉ K)) := by
  rw [List.filter_filter]
  refine List.filter_congr ?_
  intro a _
  by_cases h1 : a = x
  · subst h1; simp [hx]
  · simp [h1]

theorem keys_foldAdd (l : List (String × String)) :
    ∀ gs, (foldAdd gs l).map Prod.fst =
      gs.map Prod.fst ++
        (firstKeys (l.map Prod.snd)).filter
          (fun k => decide (k ∉ gs.map Prod.fst)) := by
  induction l with
  | nil => intro gs; simp [foldAdd, firstKeys]
  | cons e l ih =>
      intro gs
      have hfold : foldAdd gs (e :: l) = foldAdd (addPath gs e.2 (pjoin e.1 e.2)) l := rfl
      rw [hfold, ih, keys_addPath]
      by_cases hm : e.2 ∈ gs.map Prod.fst
      · rw [if_pos hm]
        congr 1
        simp only [List.map_cons, firstKeys]
        rw [List.filter_cons_of_neg (by simpa using hm)]
        exact (filter_not_mem_of_mem _ _ _ hm).symm
      · rw [if_neg hm, List.append_assoc]
        congr 1
        simp only [List.map_cons, firstKeys]
        rw [List.filter_cons_of_pos (by simpa using hm), List.singleton_append]
        congr 1
        exact filter_not_mem_append_singleton _ _ _

theorem flatMap_foldAdd_perm (l : List (String × String)) :
    ∀ gs, List.Perm ((foldAdd gs l).flatMap Prod.snd)
      (gs.flatMap Prod.snd ++ l.map (fun e => pjoin e.1 e.2)) := by
  induction l with
  | nil => intro gs; simp [foldAdd]
  | cons e l ih =>
      intro gs
      have hfold : foldAdd gs (e :: l) = foldAdd (addPath gs e.2 (pjoin e.1 e.2)) l := rfl
      rw [hfold]
      refine (ih _).trans ?_
      have h1 := (flatMap_addPath_perm gs e.2 (pjoin e.1 e.2)).append_right
        (l.map (fun e => pjoin e.1 e.2))
      refine h1.trans ?_
      simp [List.append_assoc]

theorem flatMap_groupsOf_perm (l : List (String × String)) :
    List.Perm ((groupsOf l).flatMap Prod.snd) (l.map (fun e => pjoin e.1 e.2)) := by
  have h := flatMap_foldAdd_perm l []
  simpa [groupsOf_eq_foldAdd] using h

theorem nonempty_foldAdd (l : List (String × String)) :
    ∀ gs, (∀ g ∈ gs, g.2 ≠ []) → ∀ g' ∈ foldAdd gs l, g'.2 ≠ [] := by
  induction l with
  | nil => intro gs h; exact h
  | cons e l ih =>
      intro gs h
      exact ih _ (nonempty_addPath gs e.2 (pjoin e.1 e.2) h)

theorem nonempty_groupsOf (l : List (String × String)) :
    ∀ g ∈ groupsOf l, g.2 ≠ [] := by
  rw [groupsOf_eq_foldAdd]
  exact nonempty_foldAdd l [] (by simp)

theorem nodup_keys_foldAdd (l : List (String × String)) :
    ∀ gs, ((gs.map Prod.fst).Nodup) → ((foldAdd gs l).map Prod.fst).Nodup := by
  induction l with
  | nil => intro gs h; exact h
  | cons e l ih =>
      intro gs h
      exact ih _ (nodup_keys_addPath gs e.2 (pjoin e.1 e.2) h)

theorem nodup_keys_groupsOf (l : List (String × String)) :
    ((groupsOf l).map Prod.fst).Nodup := by
  rw [groupsOf_eq_foldAdd]
  exact nodup_keys_foldAdd l [] (by simp)

theorem keys_groupsOf (l : List (String × String)) :
    (groupsOf l).map Prod.fst = firstKeys (l.map Prod.snd) := by
  rw [groupsOf_eq_foldAdd, keys_foldAdd]
  simp

theorem hasDupFold_eq_any (gs : List (String × List String)) :
    hasDupFold gs = gs.any (fun g => decide (g.2.length > 1)) := by
  unfold hasDupFold
  suffices h : ∀ b : Bool,
      gs.foldl (fun b g => if g.2.length > 1 then true else b) b
        = (b || gs.any (fun g => decide (g.2.length > 1))) by
    simpa using h false
  induction gs with
  | nil => intro b; simp
  | cons g rest ih =>
      intro b
      rw [List.foldl_cons, ih, List.any_cons]
      by_cases hg : g.2.length > 1
      · simp [hg]
      · simp [hg]

theorem dupBlocks_eq_filter (gs : List (String × List String)) :
    dupBlocks gs = (gs.filter (fun g => decide (g.2.length > 1))).flatMap
      (fun g => "" :: (g.1 ++ ":") :: g.2.map (fun p => "  - " ++ p)) := by
  induction gs with
  | nil => rfl
  | cons g rest ih =>
      by_cases hg : g.2.length > 1
      · rw [show dupBlocks (g :: rest)
              = ("" :: (g.1 ++ ":") :: g.2.map (fun p => "  - " ++ p)) ++ dupBlocks rest
            from by simp [dupBlocks, hg]]
        rw [List.filter_cons_of_pos (by simpa using hg), List.flatMap_cons, ih]
      · rw [show dupBlocks (g :: rest) = dupBlocks rest from by simp [dupBlocks, hg]]
        rw [List.filter_cons_of_neg (by simpa using hg), ih]

theorem walkKids_append (top : String) (as bs : List Entry) :
    walkKids top (as ++ bs) = walkKids top as ++ walkKids top bs := by
  induction as with
  | nil => simp [walkKids]
  | cons e as ih =>
      cases e with
      | file n c => simpa [walkKids] using ih
      | link n => simpa [walkKids] using ih
      | dir n r sub => simp [walkKids, ih, List.append_assoc]

theorem filesOf_pruneList (cs : List Entry) : filesOf (pruneList cs) = filesOf cs := by
  induction cs with
  | nil => simp [pruneList]
  | cons e rest ih =>
      cases e with
      | file n c => simpa [pruneList, filesOf] using ih
      | link n => simpa [pruneList, filesOf] using ih
      | dir n r sub => cases r <;> simpa [pruneList, filesOf] using ih

theorem dirNamesOf_pruneList (cs : List Entry) :
    dirNamesOf (pruneList cs) = dirNamesOf cs := by
  induction cs with
  | nil => simp [pruneList]
  | cons e rest ih =>
      cases e with
      | file n c => simpa [pruneList, dirNamesOf] using ih
      | link n => simpa [pruneList, dirNamesOf] using ih
      | dir n r sub => cases r <;> simpa [pruneList, dirNamesOf] using ih

theorem walkKids_pruneList (top : String) (cs : List Entry) :
    walkKids top (pruneList cs) = walkKids top cs := by
  induction top, cs using walkKids.induct with
  | case1 top => simp [pruneList]
  | case2 top n r sub rest ihsub ihrest =>
      cases r with
      | true =>
          simp [pruneList, walkKids, ihsub, ihrest, filesOf_pruneList,
            dirNamesOf_pruneList]
      | false => simp [pruneList, walkKids, ihrest]
  | case3 top e rest hne ihrest =>
      cases e with
      | file n c => simpa [pruneList, walkKids] using ihrest
      | link n => simpa [pruneList, walkKids] using ihrest
      | dir n r sub => exact absurd rfl (hne n r sub)

theorem filesOf_scrubList (cs : List Entry) : filesOf (scrubList cs) = filesOf cs := by
  induction cs with
  | nil => simp [scrubList]
  | cons e rest ih =>
      cases e with
      | file n c => simpa [scrubList, filesOf] using ih
      | link n => simpa [scrubList, filesOf] using ih
      | dir n r sub => simpa [scrubList, filesOf] using ih

theorem dirNamesOf_scrubList (cs : List Entry) :
    dirNamesOf (scrubList cs) = dirNamesOf cs := by
  induction cs with
  | nil => simp [scrubList]
  | cons e rest ih =>
      cases e with
      | file n c => simpa [scrubList, dirNamesOf] using ih
      | link n => simpa [scrubList, dirNamesOf] using ih
      | dir n r sub => simpa [scrubList, dirNamesOf] using ih

theorem walkKids_scrubList (top : String) (cs : List Entry) :
    walkKids top (scrubList cs) = walkKids top cs := by
  induction top, cs using walkKids.induct with
  | case1 top => simp [scrubList]
  | case2 top n r sub rest ihsub ihrest =>
      simp [scrubList, walkKids, ihsub, ihrest, filesOf_scrubList,
        dirNamesOf_scrubList]
  | case3 top e rest hne ihrest =>
      cases e with
      | file n c => simpa [scrubList, walkKids] using ihrest
      | link n => simpa [scrubList, walkKids] using ihrest
      | dir n r sub => exact absurd rfl (hne n r sub)

theorem walkKids_length_le (top : String) (cs : List Entry) :
    (walkKids top cs).length ≤ countDirs cs := by
  induction top, cs using walkKids.induct with
  | case1 top => simp [walkKids, countDirs]
  | case2 top n r sub rest ihsub ihrest =>
      cases r with
      | true =>
          simp only [walkKids, countDirs, if_true, List.length_append,
            List.length_cons]
          omega
      | false =>
          have h : walkKids top (Entry.dir n false sub :: rest) = walkKids top rest := by
            simp [walkKids]
          rw [h]
          simp only [countDirs]
          omega
  | case3 top e rest hne ihrest =>
      cases e with
      | file n c => simpa [walkKids, countDirs] using ihrest
      | link n => simpa [walkKids, countDirs] using ihrest
      | dir n r sub => exact absurd rfl (hne n r sub)

theorem lookupList_groupsOf (l : List (String × String)) (k : String) :
    lookupList (groupsOf l) k =
      (l.filter (fun e => e.2 = k)).map (fun e => pjoin e.1 e.2) := by
  unfold lookupList
  rw [lookupGroup_groupsOf]
  split
  · simp
  · next hl =>
      have hl' : ∀ a ∈ l, ¬ a.2 = k := by
        intro a ha hk
        exact hl (List.any_eq_true.mpr ⟨a, ha, by simp [hk]⟩)
      have hfil : l.filter (fun e => e.2 = k) = [] :=
        List.filter_eq_nil_iff.mpr (fun a ha => by simpa using hl' a ha)
      simp [hfil]

theorem walkFiles_perm_allFilesUnder (top : String) (cs : List Entry) :
    allReadableL cs = true →
    List.Perm
      ((filesOf cs).map (fun n => (top, n)) ++ (walkKids top cs).flatMap frameFiles)
      (allFilesUnder top cs) := by
  induction top, cs using walkKids.induct with
  | case1 top => intro h; simp [walkKids, filesOf, allFilesUnder]
  | case2 top n r sub rest ihsub ihrest =>
      intro h
      have hra : r = true ∧ allReadableL sub = true ∧ allReadableL rest = true := by
        simpa [allReadableL, Bool.and_eq_true] using h
      obtain ⟨hr, hsub, hrest⟩ := hra
      subst hr
      have h1 := Multiset.coe_eq_coe.mpr (ihsub hsub)
      have h2 := Multiset.coe_eq_coe.mpr (ihrest hrest)
      rw [← Multiset.coe_eq_coe]
      have e1 : filesOf (Entry.dir n true sub :: rest) = filesOf rest := by
        simp [filesOf]
      have e2 : walkKids top (Entry.dir n true sub :: rest)
          = ((pjoin top n, dirNamesOf sub, filesOf sub) :: walkKids (pjoin top n) sub)
            ++ walkKids top rest := by
        simp [walkKids]
      have e3 : allFilesUnder top (Entry.dir n true sub :: rest)
          = allFilesUnder (pjoin top n) sub ++ allFilesUnder top rest := by
        simp [allFilesUnder]
      rw [e1, e2, e3, List.flatMap_append, List.flatMap_cons]
      have e4 : frameFiles (pjoin top n, dirNamesOf sub, filesOf sub)
          = (filesOf sub).map (fun f => (pjoin top n, f)) := rfl
      rw [e4]
      simp only [← Multiset.coe_add] at h1 h2 ⊢
      rw [← h1, ← h2]
      abel
  | case3 top e rest hne ihrest =>
      intro h
      cases e with
      | file n c =>
          have hrest : allReadableL rest = true := by
            simpa [allReadableL] using h
          have h1 := ihrest hrest
          have e1 : filesOf (Entry.file n c :: rest) = n :: filesOf rest := by
            simp [filesOf]
          have e2 : walkKids top (Entry.file n c :: rest) = walkKids top rest := by
            simp [walkKids]
          have e3 : allFilesUnder top (Entry.file n c :: rest)
              = (top, n) :: allFilesUnder top rest := by
            simp [allFilesUnder]
          rw [e1, e2, e3, List.map_cons, List.cons_append]
          exact h1.cons (top, n)
      | link n =>
          have hrest : allReadableL rest = true := by
            simpa [allReadableL] using h
          have h1 := ihrest hrest
          have e1 : filesOf (Entry.link n :: rest) = filesOf rest := by
            simp [filesOf]
          have e2 : walkKids top (Entry.link n :: rest) = walkKids top rest := by
            simp [walkKids]
          have e3 : allFilesUnder top (Entry.link n :: rest)
              = allFilesUnder top rest := by
            simp [allFilesUnder]
          rw [e1, e2, e3]
          exact h1
      | dir n r sub => exact absurd rfl (hne n r sub)

theorem walkedFiles_perm (p : String) (cs : List Entry)
    (h : allReadableL cs = true) :
    List.Perm (walkedFiles p (some cs)) (allFilesUnder (dirname p) cs) := by
  have h1 := walkFiles_perm_allFilesUnder (dirname p) cs h
  have e1 : walkedFiles p (some cs)
      = (filesOf cs).map (fun n => (dirname p, n))
        ++ (walkKids (dirname p) cs).flatMap frameFiles := by
    simp [walkedFiles, walkTop, List.flatMap_cons, frameFiles]
  rw [e1]
  exact h1

theorem matchedFiles_perm (p : String) (cs : List Entry)
    (h : allReadableL cs = true) :
    List.Perm (matchedFiles p (some cs))
      ((allFilesUnder (dirname p) cs).filter (fun e => strEndsWith e.2 ".swift")) :=
  (walkedFiles_perm p cs h).filter _

theorem pjoin_eq_slash (p q : String) (h1 : p ≠ "") (h2 : strEndsWith p "/" = false)
    (h3 : strStartsWith q "/" = false) :
    pjoin p q = p ++ "/" ++ q := by
  unfold pjoin
  rw [if_neg (by simp [h3]), if_neg (by simp [h1, h2])]

theorem any_ge_two_eq (gs : List (String × List String)) :
    (gs.any fun g => decide (g.2.length ≥ 2)) =
      (gs.any fun g => decide (g.2.length > 1)) := by
  induction gs with
  | nil => rfl
  | cons g rest ih =>
      rw [List.any_cons, List.any_cons, ih,
        decide_eq_decide.mpr (show g.2.length ≥ 2 ↔ g.2.length > 1 by omega)]

theorem filter_ge_two_eq (gs : List (String × List String)) :
    gs.filter (fun g => decide (g.2.length ≥ 2)) =
      gs.filter (fun g => decide (g.2.length > 1)) :=
  List.filter_congr (fun g _ => decide_eq_decide.mpr (by omega))

theorem dupBlocks_eq_nil_of_no_dup (gs : List (String × List String))
    (h : hasDupFold gs = false) : dupBlocks gs = [] := by
  rw [dupBlocks_eq_filter]
  have hfil : gs.filter (fun g => decide (g.2.length > 1)) = [] := by
    rw [List.filter_eq_nil_iff]
    intro g hg hgt
    have := hasDupFold_eq_any gs
    rw [h] at this
    have h2 : gs.any (fun g => decide (g.2.length > 1)) = true :=
      List.any_eq_true.mpr ⟨g, hg, hgt⟩
    rw [← this] at h2
    simp at h2
  rw [hfil]
  rfl

/-- C1.  The claim reads: when the scan root directory (the parent of the
supplied project path) does not exist, the program fails with a fatal
`PathNotFoundError` before any output beyond the initial "Analyzing project
file" line.  The source never checks existence: `os.walk` on a missing root
swallows the error and yields nothing, so the program prints the full
header, prints the no-duplicates line, returns `false` and raises nothing.
At the concrete input below the printed output has four lines, not one. -/
theorem C1_counterexample :
    analyze_project "FlowMaster.xcodeproj" none =
      (["Analyzing project file: FlowMaster.xcodeproj/project.pbxproj", "",
        "Duplicate Swift files found:", "No duplicate Swift files found."],
       false) ∧
    (analyze_project "FlowMaster.xcodeproj" none).1 ≠
      ["Analyzing project file: FlowMaster.xcodeproj/project.pbxproj"] := by
  constructor
  · rfl
  · decide

/-- C1, amended.  When the scan root does not exist the walk silently yields
nothing: for every project path the program prints exactly the header lines
followed by the no-duplicates line, returns `has_duplicates = false`, and no
error is raised. -/
theorem C1_missing_root (p : String) :
    analyze_project p none =
      (["Analyzing project file: " ++ pjoin p "project.pbxproj", "",
        "Duplicate Swift files found:", "No duplicate Swift files found."],
       false) := rfl

/-- C3.  After any scan, every path list in the groups map has length at
least 1, and the returned `has_duplicates` boolean is true iff at least one
group's path list has length at least 2. -/
theorem C3_group_sizes (p : String) (root : Option (List Entry)) :
    (∀ g ∈ swift_files p root, 1 ≤ g.2.length) ∧
    ((analyze_project p root).2 = true ↔
      ∃ g ∈ swift_files p root, 2 ≤ g.2.length) := by
  constructor
  · intro g hg
    exact List.length_pos.mpr (nonempty_groupsOf _ g hg)
  · have e : (analyze_project p root).2 = hasDupFold (swift_files p root) := rfl
    rw [e, hasDupFold_eq_any, List.any_eq_true]
    constructor
    · rintro ⟨g, hg, hgt⟩
      refine ⟨g, hg, ?_⟩
      simpa using hgt
    · rintro ⟨g, hg, hgt⟩
      refine ⟨g, hg, ?_⟩
      simpa using hgt

/-- C6.  Invoked as a command, the project path is the single positional
argument, or the fixed bundle name "FlowMaster.xcodeproj" when the argument
is omitted, and the process exit status is 0 whether or not duplicates were
found. -/
theorem C6_main_exit (args : List String) (root : Option (List Entry)) :
    (mainRun args root).2 = 0 ∧
    (mainRun args root).1 =
      analyze_project ((args.head?).getD "FlowMaster.xcodeproj") root ∧
    (mainRun [] root).1.1.head? =
      some ("Analyzing project file: "
        ++ pjoin "FlowMaster.xcodeproj" "project.pbxproj") := by
  exact ⟨rfl, rfl, rfl⟩

/-- C8.  An unreadable entry is skipped silently and the walk continues: the
scan of a tree equals the scan of the tree with every unreadable directory's
subtree removed, and an unreadable directory among siblings contributes no
frame while the siblings after it are still walked. -/
theorem C8_unreadable_skipped (p top n : String) (cs as bs sub : List Entry) :
    analyze_project p (some (pruneList cs)) = analyze_project p (some cs) ∧
    walkKids top (as ++ Entry.dir n false sub :: bs) = walkKids top (as ++ bs) := by
  constructor
  · have hw : walkTop (dirname p) (some (pruneList cs))
        = walkTop (dirname p) (some cs) := by
      simp only [walkTop]
      rw [walkKids_pruneList, dirNamesOf_pruneList, filesOf_pruneList]
    unfold analyze_project swift_files matchedFiles walkedFiles
    rw [hw]
  · rw [walkKids_append, walkKids_append,
      show walkKids top (Entry.dir n false sub :: bs) = walkKids top bs from by
        simp [walkKids]]

/-- C9.  The scan terminates on every modelled filesystem tree: the walk
yields at most one frame per directory of the tree (so it is finite), on a
missing root it yields nothing at all, and a symlink entry contributes no
frames of its own — `os.walk` with its default `followlinks = False` never
descends through links, which is exactly why symlink cycles cannot make the
walk hang. -/
theorem C9_walk_finite (p top n : String) (cs rest : List Entry) :
    (walkTop (dirname p) (some cs)).length ≤ 1 + countDirs cs ∧
    walkTop (dirname p) none = [] ∧
    walkKids top (Entry.link n :: rest) = walkKids top rest := by
  refine ⟨?_, rfl, by simp [walkKids]⟩
  have h := walkKids_length_le (dirname p) cs
  simp only [walkTop, List.length_cons]
  omega

/-- C10.  In the printed report, duplicate groups appear in the order in
which their basenames were first encountered during the traversal, and
within each group the paths appear in the order the walk yielded them: the
keys of the groups map are the first occurrences of the matched basenames in
traversal order, the list under each key is the traversal-ordered list of
joined paths for that basename, and the report lines iterate the groups map
in that insertion order restricted to groups with more than one path. -/
theorem C10_report_order (p : String) (root : Option (List Entry)) :
    ((swift_files p root).map Prod.fst)
      = firstKeys ((matchedFiles p root).map Prod.snd) ∧
    (∀ k, lookupList (swift_files p root) k =
      ((matchedFiles p root).filter (fun e => e.2 = k)).map
        (fun e => pjoin e.1 e.2)) ∧
    dupBlocks (swift_files p root) =
      ((swift_files p root).filter (fun g => decide (g.2.length > 1))).flatMap
        (fun g => "" :: (g.1 ++ ":") :: g.2.map (fun q => "  - " ++ q)) := by
  exact ⟨keys_groupsOf _, fun k => lookupList_groupsOf _ k, dupBlocks_eq_filter _⟩

/-- C2.  Over a fully readable tree, every file whose name ends with the
target suffix appears in exactly one group keyed by its basename, the union
of all group path lists equals the set of suffix-matching files under the
scan root, and within a key the paths are appended in traversal order. -/
theorem C2_grouping (p : String) (cs : List Entry)
    (h : allReadableL cs = true) :
    ((swift_files p (some cs)).map Prod.fst).Nodup ∧
    (∀ e ∈ allFilesUnder (dirname p) cs, strEndsWith e.2 ".swift" = true →
      pjoin e.1 e.2 ∈ lookupList (swift_files p (some cs)) e.2) ∧
    List.Perm ((swift_files p (some cs)).flatMap Prod.snd)
      (((allFilesUnder (dirname p) cs).filter
          (fun e => strEndsWith e.2 ".swift")).map (fun e => pjoin e.1 e.2)) ∧
    (∀ k, lookupList (swift_files p (some cs)) k =
      ((matchedFiles p (some cs)).filter (fun e => e.2 = k)).map
        (fun e => pjoin e.1 e.2)) := by
  refine ⟨nodup_keys_groupsOf _, ?_, ?_, fun k => lookupList_groupsOf _ k⟩
  · intro e he hsw
    have hmem : e ∈ matchedFiles p (some cs) := by
      have hf : e ∈ (allFilesUnder (dirname p) cs).filter
          (fun e => strEndsWith e.2 ".swift") :=
        List.mem_filter.mpr ⟨he, hsw⟩
      exact ((matchedFiles_perm p cs h).mem_iff).mpr hf
    rw [show swift_files p (some cs) = groupsOf (matchedFiles p (some cs)) from rfl,
      lookupList_groupsOf]
    exact List.mem_map.mpr ⟨e, List.mem_filter.mpr ⟨hmem, by simp⟩, rfl⟩
  · exact (flatMap_groupsOf_perm _).trans ((matchedFiles_perm p cs h).map _)

/-- Witness for C2: the sample tree is fully readable and the theorem
applies to it. -/
theorem C2_grouping_witness :
    allReadableL sampleDupTree = true ∧
    (((swift_files "src/FlowMaster.xcodeproj" (some sampleDupTree)).map
        Prod.fst).Nodup ∧
    (∀ e ∈ allFilesUnder (dirname "src/FlowMaster.xcodeproj") sampleDupTree,
      strEndsWith e.2 ".swift" = true →
      pjoin e.1 e.2 ∈
        lookupList (swift_files "src/FlowMaster.xcodeproj" (some sampleDupTree)) e.2) ∧
    List.Perm
      ((swift_files "src/FlowMaster.xcodeproj" (some sampleDupTree)).flatMap Prod.snd)
      (((allFilesUnder (dirname "src/FlowMaster.xcodeproj") sampleDupTree).filter
          (fun e => strEndsWith e.2 ".swift")).map (fun e => pjoin e.1 e.2)) ∧
    (∀ k, lookupList (swift_files "src/FlowMaster.xcodeproj" (some sampleDupTree)) k =
      ((matchedFiles "src/FlowMaster.xcodeproj" (some sampleDupTree)).filter
          (fun e => e.2 = k)).map (fun e => pjoin e.1 e.2))) :=
  ⟨by simp [allReadableL, sampleDupTree],
   C2_grouping "src/FlowMaster.xcodeproj" sampleDupTree
     (by simp [allReadableL, sampleDupTree])⟩

/-- C4.  A file encountered during the walk is included in the grouping iff
its name ends with ".swift", compared as an exact case-sensitive suffix
match; moreover every key of the grouping map carries the suffix. -/
theorem C4_suffix_filter (p : String) (root : Option (List Entry)) :
    (∀ e ∈ walkedFiles p root,
      (pjoin e.1 e.2 ∈ lookupList (swift_files p root) e.2 ↔
        strEndsWith e.2 ".swift" = true)) ∧
    (∀ k, (lookupGroup (swift_files p root) k).isSome = true →
      strEndsWith k ".swift" = true) := by
  constructor
  · intro e he
    rw [show swift_files p root = groupsOf (matchedFiles p root) from rfl,
      lookupList_groupsOf]
    constructor
    · intro hmem
      obtain ⟨a, ha, hEq⟩ := List.mem_map.mp hmem
      have ha2 := List.mem_filter.mp ha
      have hk : a.2 = e.2 := by simpa using ha2.2
      have ham := List.mem_filter.mp ha2.1
      rw [← hk]
      exact ham.2
    · intro hsw
      have hmem : e ∈ matchedFiles p root := List.mem_filter.mpr ⟨he, hsw⟩
      exact List.mem_map.mpr ⟨e, List.mem_filter.mpr ⟨hmem, by simp⟩, rfl⟩
  · intro k hk
    rw [show swift_files p root = groupsOf (matchedFiles p root) from rfl,
      lookupGroup_groupsOf] at hk
    by_cases hany : (matchedFiles p root).any (fun e => e.2 = k) = true
    · obtain ⟨a, ha, he⟩ := List.any_eq_true.mp hany
      have ham := List.mem_filter.mp ha
      have hak : a.2 = k := by simpa using he
      rw [← hak]
      exact ham.2
    · rw [if_neg hany] at hk
      exact absurd hk (by simp)

/-- Witness for C4: the pair `("", "A.swift")` is walked in the flat sample
tree and the equivalence holds for it. -/
theorem C4_suffix_filter_witness :
    ("", "A.swift") ∈ walkedFiles "FlowMaster.xcodeproj" (some sampleFlatTree) ∧
    (pjoin "" "A.swift" ∈
        lookupList (swift_files "FlowMaster.xcodeproj" (some sampleFlatTree))
          "A.swift" ↔
      strEndsWith "A.swift" ".swift" = true) := by
  have hd : dirname "FlowMaster.xcodeproj" = "" := by decide
  have hmem : ("", "A.swift") ∈ walkedFiles "FlowMaster.xcodeproj"
      (some sampleFlatTree) := by
    simp [walkedFiles, walkTop, walkKids, frameFiles, filesOf, hd, sampleFlatTree]
  exact ⟨hmem,
    (C4_suffix_filter "FlowMaster.xcodeproj" (some sampleFlatTree)).1
      ("", "A.swift") hmem⟩

/-- C5.  For a project path that is nonempty and does not end with a slash,
the printed output reproduces the spec's format literally: the line
"Analyzing project file: <root_path>/project.pbxproj", a blank line, the
header "Duplicate Swift files found:", then one block per duplicate group
(blank line, name with colon, indented "  - " path lines), with the final
part replaced by "No duplicate Swift files found." when no key has two or
more paths. -/
theorem C5_output_format (p : String) (root : Option (List Entry))
    (h1 : p ≠ "") (h2 : strEndsWith p "/" = false) :
    (analyze_project p root).1 = specReportLines p (swift_files p root) := by
  have hline : "Analyzing project file: " ++ pjoin p "project.pbxproj"
      = "Analyzing project file: " ++ p ++ "/project.pbxproj" := by
    rw [pjoin_eq_slash p "project.pbxproj" h1 h2 (by decide)]
    simp only [← String.append_assoc]
    rw [String.append_assoc ("Analyzing project file: " ++ p) "/" "project.pbxproj"]
    rw [show ("/" : String) ++ "project.pbxproj" = "/project.pbxproj" from by decide]
  simp only [analyze_project, specReportLines]
  rw [hline, any_ge_two_eq, ← hasDupFold_eq_any]
  by_cases hd : hasDupFold (swift_files p root) = true
  · rw [hd, filter_ge_two_eq, ← dupBlocks_eq_filter]
    simp
  · have hd' : hasDupFold (swift_files p root) = false := by
      cases hhh : hasDupFold (swift_files p root)
      · rfl
      · exact absurd hhh hd
    rw [hd', dupBlocks_eq_nil_of_no_dup _ hd']
    simp

/-- Witness for C5: the sample project path satisfies both hypotheses and
the equality holds at the sample tree. -/
theorem C5_output_format_witness :
    ("src/FlowMaster.xcodeproj" ≠ "" ∧
      strEndsWith "src/FlowMaster.xcodeproj" "/" = false) ∧
    (analyze_project "src/FlowMaster.xcodeproj" (some sampleDupTree)).1
      = specReportLines "src/FlowMaster.xcodeproj"
          (swift_files "src/FlowMaster.xcodeproj" (some sampleDupTree)) :=
  ⟨⟨by decide, by decide⟩,
   C5_output_format "src/FlowMaster.xcodeproj" (some sampleDupTree)
     (by decide) (by decide)⟩

/-- C7.  The scan is deterministic and its result depends only on the
directory tree's shape: rerunning on an unchanged tree yields the identical
result, and any two trees that agree after erasing all file contents (in
particular, trees differing only in the contents of `project.pbxproj`)
produce identical output and the same `has_duplicates` value. -/
theorem C7_content_independent (p : String) (root : Option (List Entry))
    (cs cs' : List Entry) (h : scrubList cs = scrubList cs') :
    analyze_project p root = analyze_project p root ∧
    analyze_project p (some cs) = analyze_project p (some cs') := by
  refine ⟨rfl, ?_⟩
  have hw : walkTop (dirname p) (some cs) = walkTop (dirname p) (some cs') := by
    simp only [walkTop]
    rw [← walkKids_scrubList (dirname p) cs, ← dirNamesOf_scrubList cs,
      ← filesOf_scrubList cs, h, filesOf_scrubList, dirNamesOf_scrubList,
      walkKids_scrubList]
  unfold analyze_project swift_files matchedFiles walkedFiles
  rw [hw]

/-- Witness for C7: two trees differing only in the contents of
`project.pbxproj` scrub to the same tree and produce the same result. -/
theorem C7_content_independent_witness :
    scrubList pbxTreeOld = scrubList pbxTreeNew ∧
    analyze_project "FlowMaster.xcodeproj" (some pbxTreeOld)
      = analyze_project "FlowMaster.xcodeproj" (some pbxTreeNew) := by
  have h : scrubList pbxTreeOld = scrubList pbxTreeNew := by
    simp [scrubList, pbxTreeOld, pbxTreeNew]
  exact ⟨h, (C7_content_independent "FlowMaster.xcodeproj" none
    pbxTreeOld pbxTreeNew h).2⟩

/-- Witness for C3 at the sample tree with a duplicate. -/
theorem C3_group_sizes_witness :
    (∀ g ∈ swift_files "src/FlowMaster.xcodeproj" (some sampleDupTree),
      1 ≤ g.2.length) ∧
    ((analyze_project "src/FlowMaster.xcodeproj" (some sampleDupTree)).2 = true ↔
      ∃ g ∈ swift_files "src/FlowMaster.xcodeproj" (some sampleDupTree),
        2 ≤ g.2.length) :=
  C3_group_sizes "src/FlowMaster.xcodeproj" (some sampleDupTree)
